/-
Verification of the access-log analyzer in archivo.py.

The file shallowly embeds the analyzer's core: the fixed seven-group
regular expression and its backtracking match semantics, the timestamp
normalization performed with datetime.strptime / strftime, record
construction in analyze_logs, the JSON serialization of records, and the
Counter-based aggregations used by the plotting helpers and by
generate_analysis_report.  Theorems below settle the specification's
claims about this code.

Modelling conventions:
- Python strings are Lean String / List Char; the input is the ASCII log
  text, so the whitespace class of Python's regex \s and str.strip is
  modelled by its ASCII part.
- Python ints are Lean Int (the parsed fields) or Nat (counts, lengths).
- Python float division in the report's average is modelled by exact
  rational division, keeping the guard structure of the source.
- Counter iteration order (insertion order) is modelled explicitly, and
  Counter.most_common's stable descending sort, as well as sorted(...),
  are modelled by a stable insertion sort.
-/
import Mathlib

namespace Archivo

/-- Whitespace test modelling Python's whitespace class (regex \s and the
str.strip check of analyze_logs) over the ASCII range of the log input. -/
def isPySpace (c : Char) : Bool :=
  c = ' ' || c = '\t' || c = '\n' || c = '\r' || c = '\x0b' || c = '\x0c'

/-- Character class \S of the pattern: any non-whitespace character. -/
def nonSpace (c : Char) : Bool := !(isPySpace c)

/-- One element of the regular expression of LogAnalyzerNASA.regex_pattern:
a literal character, a capturing one-or-more character-class group (like
(\S+) or ([^CLOSEBRACKET]+)), the capturing exactly-three-digits group
(\d{3}), or the capturing alternation (\d+|-) for the bytes field. -/
inductive RItem where
  | lit : Char → RItem
  | plusGrp : (Char → Bool) → RItem
  | rep3Grp : (Char → Bool) → RItem
  | numOrDashGrp : RItem

/-- Greedy matching with backtracking for a one-or-more group, exactly as a
backtracking regex engine runs X+: prefer consuming one more class
character, and on failure of the rest of the pattern give one back.
acc holds the group's consumed characters in reverse; next runs the rest
of the pattern on the remaining input. -/
def goPlus (p : Char → Bool)
    (next : List Char → Option (List (List Char) × List Char))
    (acc : List Char) : List Char → Option (List (List Char) × List Char)
  | [] => (next []).map (fun pr => (acc.reverse :: pr.1, pr.2))
  | c :: rest =>
    if p c then
      match goPlus p next (c :: acc) rest with
      | some r => some r
      | none => (next (c :: rest)).map (fun pr => (acc.reverse :: pr.1, pr.2))
    else (next (c :: rest)).map (fun pr => (acc.reverse :: pr.1, pr.2))

/-- First-alternative-wins choice, the behaviour of a regex alternation. -/
def orElseO {α : Type} (a b : Option α) : Option α :=
  match a with
  | some x => some x
  | none => b

/-- Backtracking matcher for a sequence of pattern items, modelling how
re.match runs the (start-anchored, end-unanchored) pattern: on success it
returns the list of captured groups and the unconsumed remainder of the
input line. -/
def rmatch : List RItem → List Char → Option (List (List Char) × List Char)
  | [], s => some ([], s)
  | RItem.lit c :: items, s =>
    match s with
    | d :: rest => if d = c then rmatch items rest else none
    | [] => none
  | RItem.plusGrp p :: items, s =>
    match s with
    | c :: rest =>
      if p c then goPlus p (fun r => rmatch items r) [c] rest else none
    | [] => none
  | RItem.rep3Grp p :: items, s =>
    match s with
    | a :: b :: c :: rest =>
      if p a && p b && p c then
        match rmatch items rest with
        | some pr => some ([a, b, c] :: pr.1, pr.2)
        | none => none
      else none
    | _ => none
  | RItem.numOrDashGrp :: items, s =>
    orElseO
      (match s with
       | c :: rest =>
         if Char.isDigit c then
           goPlus Char.isDigit (fun r => rmatch items r) [c] rest
         else none
       | [] => none)
      (match s with
       | '-' :: rest =>
         match rmatch items rest with
         | some pr => some (['-'] :: pr.1, pr.2)
         | none => none
       | _ => none)

/-- Literal pattern items for every character of a string. -/
def litsOf (s : String) : List RItem := s.data.map RItem.lit

/-- The pattern of LogAnalyzerNASA.regex_pattern, item by item. -/
def logPattern : List RItem :=
  [RItem.plusGrp nonSpace] ++ litsOf " - - [" ++
    [RItem.plusGrp (fun c => !(c = ']'))] ++ litsOf "] \"" ++
    [RItem.plusGrp nonSpace, RItem.lit ' ', RItem.plusGrp nonSpace,
      RItem.lit ' ', RItem.plusGrp nonSpace] ++ litsOf "\" " ++
    [RItem.rep3Grp Char.isDigit, RItem.lit ' ', RItem.numOrDashGrp]

/-- Value of a string of decimal digits, as computed by Python's int(). -/
def digitsVal (ds : List Char) : Nat :=
  ds.foldl (fun acc c => 10 * acc + (c.toNat - '0'.toNat)) 0

/-! Model of datetime.strptime(log_time, d/b/Y:H:M:S z) as used in
analyze_logs.  Each numeric directive of CPython's _strptime matches one
or two digits with the directive's range built into its regex; the
datetime constructor then validates the calendar fields, and any failure
raises ValueError, which analyze_logs catches. -/

/-- Numeric strptime directive taking one digit, or two digits whose value
lies in [min1, max2] (min1 also bounds the one-digit case from below, as
in the %d directive which rejects 0); a longer digit run fails because the
following literal of the format cannot match a digit. -/
def parseNumField (min1 max2 : Nat) (s : List Char) : Option (Nat × List Char) :=
  match s.takeWhile Char.isDigit with
  | [a] =>
    if min1 ≤ digitsVal [a] then some (digitsVal [a], s.dropWhile Char.isDigit)
    else none
  | [a, b] =>
    if min1 ≤ digitsVal [a, b] ∧ digitsVal [a, b] ≤ max2 then
      some (digitsVal [a, b], s.dropWhile Char.isDigit)
    else none
  | _ => none

/-- Exactly four digits, the %Y directive. -/
def parse4d (s : List Char) : Option (Nat × List Char) :=
  match s with
  | a :: b :: c :: d :: rest =>
    if a.isDigit && b.isDigit && c.isDigit && d.isDigit then
      some (digitsVal [a, b, c, d], rest)
    else none
  | _ => none

/-- Exactly two digits (used inside the %z offset). -/
def parse2d (s : List Char) : Option (Nat × List Char) :=
  match s with
  | a :: b :: rest =>
    if a.isDigit && b.isDigit then some (digitsVal [a, b], rest) else none
  | _ => none

/-- A required literal character of the format. -/
def expectCh (c : Char) : List Char → Option (List Char)
  | d :: rest => if d = c then some rest else none
  | [] => none

/-- One or more whitespace characters: a whitespace character in a strptime
format matches like the regex \s+. -/
def skipWs1 (s : List Char) : Option (List Char) :=
  if (s.takeWhile isPySpace).length ≥ 1 then some (s.dropWhile isPySpace)
  else none

/-- The abbreviated month names of the %b directive (matched
case-insensitively by strptime). -/
def monthNum (w : String) : Option Nat :=
  if w = "jan" then some 1 else if w = "feb" then some 2
  else if w = "mar" then some 3 else if w = "apr" then some 4
  else if w = "may" then some 5 else if w = "jun" then some 6
  else if w = "jul" then some 7 else if w = "aug" then some 8
  else if w = "sep" then some 9 else if w = "oct" then some 10
  else if w = "nov" then some 11 else if w = "dec" then some 12
  else none

/-- The %b directive: three letters naming a month, case-insensitive. -/
def parseMonth (s : List Char) : Option (Nat × List Char) :=
  match s with
  | a :: b :: c :: rest =>
    match monthNum (String.mk [a.toLower, b.toLower, c.toLower]) with
    | some m => some (m, rest)
    | none => none
  | _ => none

/-- Optional fraction of a second inside %z: a dot followed by one to six
digits; with no digit after the dot the group matches empty and the dot is
left unconsumed. -/
def parseFracOpt (r : List Char) : List Char :=
  match r with
  | '.' :: t =>
    if 1 ≤ (t.takeWhile Char.isDigit).length then
      t.drop (min 6 (t.takeWhile Char.isDigit).length)
    else r
  | _ => r

/-- Two digits with value at most 59, as matched by the minute and second
parts of the %z directive (regex 0-5 then a digit). -/
def parse2dLe59 (s : List Char) : Option (Nat × List Char) :=
  match parse2d s with
  | some (v, r) => if v ≤ 59 then some (v, r) else none
  | none => none

/-- Optional seconds part of %z: when the minutes were written with a
colon the seconds need one too, and without it they need none (CPython
raises on inconsistent colons, and a seconds part the branch cannot take
is left unconsumed, failing the whole-string requirement later); absent
or malformed seconds leave the group empty. -/
def parseTzSecFrac (colonUsed : Bool) (r : List Char) : Nat × List Char :=
  if colonUsed then
    match r with
    | ':' :: a :: b :: t =>
      if a.isDigit && b.isDigit && digitsVal [a, b] ≤ 59 then
        (digitsVal [a, b], parseFracOpt t)
      else (0, r)
    | _ => (0, r)
  else
    match r with
    | a :: b :: t =>
      if a.isDigit && b.isDigit && digitsVal [a, b] ≤ 59 then
        (digitsVal [a, b], parseFracOpt t)
      else (0, r)
    | _ => (0, r)

/-- The %z directive: the literal Z, or a sign, two digits of hours, an
optional colon, two digits of minutes below 60, and an optional seconds
part.  Returns the absolute offset in seconds (its sign does not affect
the validity bound). -/
def parseTz (s : List Char) : Option (Nat × List Char) :=
  match s with
  | 'Z' :: rest => some (0, rest)
  | c :: rest =>
    if c = '+' || c = '-' then
      match parse2d rest with
      | some (hh, r1) =>
        match r1 with
        | ':' :: r2 =>
          match parse2dLe59 r2 with
          | some (mm, r3) =>
            match parseTzSecFrac true r3 with
            | (ss, r4) => some (hh * 3600 + mm * 60 + ss, r4)
          | none => none
        | _ =>
          match parse2dLe59 r1 with
          | some (mm, r3) =>
            match parseTzSecFrac false r3 with
            | (ss, r4) => some (hh * 3600 + mm * 60 + ss, r4)
          | none => none
      | none => none
    else none
  | [] => none

/-- Gregorian month lengths, as validated by the datetime constructor. -/
def daysInMonth (y m : Nat) : Nat :=
  if m = 2 then
    if y % 4 = 0 && (!(y % 100 = 0) || y % 400 = 0) then 29 else 28
  else if m = 4 || m = 6 || m = 9 || m = 11 then 30
  else 31

/-- Full model of datetime.strptime(ts, d/b/Y:H:M:S z): the format must
consume the whole string, and the resulting fields must satisfy the
datetime constructor (year at least 1, day within the month, second at
most 59, timezone offset strictly less than 24 hours).  Returns the
(year, month, day) triple that the strftime reformatting uses. -/
def strptimeDbY (s : List Char) : Option (Nat × Nat × Nat) := do
  let (d, r1) ← parseNumField 1 31 s
  let r2 ← expectCh '/' r1
  let (m, r3) ← parseMonth r2
  let r4 ← expectCh '/' r3
  let (y, r5) ← parse4d r4
  let r6 ← expectCh ':' r5
  let (_hh, r7) ← parseNumField 0 23 r6
  let r8 ← expectCh ':' r7
  let (_mi, r9) ← parseNumField 0 59 r8
  let r10 ← expectCh ':' r9
  let (ss, r11) ← parseNumField 0 61 r10
  let r12 ← skipWs1 r11
  let (off, r13) ← parseTz r12
  if r13 = [] ∧ 1 ≤ y ∧ d ≤ daysInMonth y m ∧ ss ≤ 59 ∧ off < 86400 then
    some (y, m, d)
  else none

/-- Two-digit zero-padded decimal, as printed by strftime %m and %d. -/
def pad2 (n : Nat) : String :=
  if n < 10 then "0" ++ toString n else toString n

/-- Four-digit zero-padded decimal for strftime %Y.  CPython delegates %Y
to the C library, which pads years below 1000 on some platforms and not on
others; the model uses the specification's fixed-width YYYY rendering,
which agrees with every platform on the four-digit years of the log
data. -/
def pad4 (n : Nat) : String :=
  if n < 10 then "000" ++ toString n
  else if n < 100 then "00" ++ toString n
  else if n < 1000 then "0" ++ toString n
  else toString n

/-- strftime of a parsed date with format Y-m-d. -/
def fmtYMD : Nat × Nat × Nat → String
  | (y, m, d) => pad4 y ++ "-" ++ pad2 m ++ "-" ++ pad2 d

/-- The try/except ValueError block of analyze_logs: normalize the captured
timestamp to Y-m-d when it parses, keep it verbatim otherwise. -/
def dateFormatted (ts : String) : String :=
  match strptimeDbY ts.data with
  | some ymd => fmtYMD ymd
  | none => ts

/-- One parsed log line: the dict built by analyze_logs, with its keys as
fields in order. -/
structure LogEntry where
  client : String
  log_time : String
  request_method : String
  request_path : String
  request_protocol : String
  response_code : Int
  bytes_transferred : Int
deriving DecidableEq

/-- Construction of the log_entry dict of analyze_logs from the seven
captured groups: the timestamp is normalized by dateFormatted, the status
group is converted with int(), and the bytes group maps the dash sentinel
to 0 and is converted with int() otherwise. -/
def mkLogEntry (c t m p pr st b : List Char) : LogEntry :=
  { client := String.mk c
    log_time := dateFormatted (String.mk t)
    request_method := String.mk m
    request_path := String.mk p
    request_protocol := String.mk pr
    response_code := (digitsVal st : Int)
    bytes_transferred := if b = ['-'] then 0 else (digitsVal b : Int) }

/-- Processing of one line of the loop of analyze_logs: skip the line when
it strips to nothing, otherwise run re.match and, on success, build the
record from the seven groups; on failure produce nothing. -/
def parseLine (line : String) : Option LogEntry :=
  if line.data.all isPySpace then none
  else
    match rmatch logPattern line.data with
    | some ([c, t, m, p, pr, st, b], _) => some (mkLogEntry c t m p pr st b)
    | _ => none

/-- The batch loop of analyze_logs: fold over the fetched lines, appending
each successfully parsed record to the instance's log_entries list. -/
def analyze_logs (state : List LogEntry) (lines : List String) : List LogEntry :=
  lines.foldl (fun acc line =>
    match parseLine line with
    | some e => acc ++ [e]
    | none => acc) state

/-! The aggregation primitives.  collections.Counter (and the defaultdict
counting loop of plot_daily_requests_trend) keeps its keys in first-insert
order with their occurrence counts; Counter.most_common and sorted() are
stable sorts. -/

/-- One counting step of Counter / the defaultdict loop: increment the
existing key or insert it at the end with count 1. -/
def counterAdd {α : Type} [DecidableEq α] (l : List (α × Nat)) (x : α) :
    List (α × Nat) :=
  if l.any (fun pr => pr.1 = x) then
    l.map (fun pr => if pr.1 = x then (pr.1, pr.2 + 1) else pr)
  else l ++ [(x, 1)]

/-- Counter(xs): occurrence counts keyed in first-encounter order. -/
def counter {α : Type} [DecidableEq α] (xs : List α) : List (α × Nat) :=
  xs.foldl counterAdd []

/-- The distinct values of a list in first-encounter order (the key order
of a Counter built from it). -/
def keysOf {α : Type} [DecidableEq α] (xs : List α) : List α :=
  xs.foldl (fun ks x => if x ∈ ks then ks else ks ++ [x]) []

/-- Stable insertion step: x is placed before the first element y with
le x y, so elements equal under the sort key keep their original order,
exactly as in Python's stable sorts. -/
def insStable {α : Type} (le : α → α → Bool) (x : α) : List α → List α
  | [] => [x]
  | y :: ys => if le x y then x :: y :: ys else y :: insStable le x ys

/-- Stable sort by the boolean relation le (Python's sorted / the sort
inside Counter.most_common). -/
def sortStable {α : Type} (le : α → α → Bool) : List α → List α
  | [] => []
  | x :: xs => insStable le x (sortStable le xs)

/-- Counter.most_common(n): the count pairs sorted by descending count
(stably, so ties keep insertion order) and truncated to the n largest. -/
def mostCommon {α : Type} (l : List (α × Nat)) (n : Nat) : List (α × Nat) :=
  (sortStable (fun a b => decide (b.2 ≤ a.2)) l).take n

/-- Lexicographic comparison of character lists by code point, the
comparison Python's string sort uses. -/
def lexLe : List Char → List Char → Bool
  | [], _ => true
  | _ :: _, [] => false
  | a :: as, b :: bs =>
    if a.toNat < b.toNat then true
    else if b.toNat < a.toNat then false
    else lexLe as bs

/-- Lexicographic string comparison by code point. -/
def strLeB (a b : String) : Bool := lexLe a.data b.data

/-- Dictionary lookup in a count list (a missing key reads 0, as in a
defaultdict(int)). -/
def lookupCount {α : Type} [DecidableEq α] (l : List (α × Nat)) (x : α) : Nat :=
  match l.find? (fun pr => pr.1 = x) with
  | some pr => pr.2
  | none => 0

/-- The aggregation of plot_daily_requests_trend: count records per
log_time value, then list the distinct dates sorted ascending, each with
its count. -/
def plot_daily_requests_trend (entries : List LogEntry) : List (String × Nat) :=
  let dc := counter (entries.map (fun e => e.log_time))
  (sortStable strLeB (dc.map Prod.fst)).map (fun d => (d, lookupCount dc d))

/-- The aggregation of plot_top_requested_paths: the top_n most common
request paths with their counts. -/
def plot_top_requested_paths (entries : List LogEntry) (top_n : Nat) :
    List (String × Nat) :=
  mostCommon (counter (entries.map (fun e => e.request_path))) top_n

/-- The report dict assembled by generate_analysis_report, with its keys
as fields in order.  The average is Python float division, modelled by
exact rational division. -/
structure ReportData where
  total_requests : Nat
  unique_clients : Nat
  total_bytes_transferred : Int
  average_bytes_per_request : ℚ
  http_methods_count : List (String × Nat)
  status_codes_count : List (Int × Nat)
  top_10_paths : List (String × Nat)
deriving DecidableEq

/-- generate_analysis_report: totals, the count of distinct clients
(len of a set), the byte sum, the guarded average, both frequency
Counters, and Counter(paths).most_common(10). -/
def generate_analysis_report (entries : List LogEntry) : ReportData :=
  { total_requests := entries.length
    unique_clients := (entries.map (fun e => e.client)).dedup.length
    total_bytes_transferred := (entries.map (fun e => e.bytes_transferred)).sum
    average_bytes_per_request :=
      if 0 < entries.length then
        ((entries.map (fun e => e.bytes_transferred)).sum : ℚ) /
          (entries.length : ℚ)
      else 0
    http_methods_count := counter (entries.map (fun e => e.request_method))
    status_codes_count := counter (entries.map (fun e => e.response_code))
    top_10_paths := mostCommon (counter (entries.map (fun e => e.request_path))) 10 }

/-- A JSON scalar of the persisted record array: every field of a record
is a string or an integer. -/
inductive JVal where
  | str : String → JVal
  | int : Int → JVal
deriving DecidableEq

/-- The JSON object json.dump writes for one record: the dict's key/value
pairs in insertion order. -/
def entryJsonPairs (e : LogEntry) : List (String × JVal) :=
  [("client", JVal.str e.client),
   ("log_time", JVal.str e.log_time),
   ("request_method", JVal.str e.request_method),
   ("request_path", JVal.str e.request_path),
   ("request_protocol", JVal.str e.request_protocol),
   ("response_code", JVal.int e.response_code),
   ("bytes_transferred", JVal.int e.bytes_transferred)]

/-- save_to_json: the persisted array, one JSON object per record in
collection order. -/
def save_to_json (entries : List LogEntry) : List (List (String × JVal)) :=
  entries.map entryJsonPairs

/-- Modelled from the spec: the seven LogRecord field names of the
specification's data model, in its order (the specification gives these as
the stable field names of the persisted record objects; the code is the
authority for what save_to_json actually writes). -/
def specLogRecordFields : List String :=
  ["client", "date", "method", "path", "protocol", "status_code", "bytes_sent"]

/-! Concrete inputs used to instantiate the theorems below. -/

/-- The end-to-end example line of the specification. -/
def exLine : String :=
  "127.0.0.1 - - [10/Jul/1995:08:00:00 -0500] \"GET /index.html HTTP/1.0\" 200 1024"

/-- The seven groups the pattern captures on exLine. -/
def exCaps : List (List Char) :=
  ["127.0.0.1".data, "10/Jul/1995:08:00:00 -0500".data, "GET".data,
    "/index.html".data, "HTTP/1.0".data, "200".data, "1024".data]

/-- The record parsed from exLine. -/
def exEntry : LogEntry :=
  { client := "127.0.0.1", log_time := "1995-07-10", request_method := "GET",
    request_path := "/index.html", request_protocol := "HTTP/1.0",
    response_code := 200, bytes_transferred := 1024 }

/-- A matching line whose timestamp does not parse. -/
def badTsLine : String :=
  "127.0.0.1 - - [not-a-date] \"GET / HTTP/1.0\" 200 5"

/-- The record parsed from badTsLine: the raw timestamp is kept verbatim. -/
def badTsEntry : LogEntry :=
  { client := "127.0.0.1", log_time := "not-a-date", request_method := "GET",
    request_path := "/", request_protocol := "HTTP/1.0",
    response_code := 200, bytes_transferred := 5 }

/-- A matching line whose bytes field is the dash sentinel. -/
def dashLine : String :=
  "10.0.0.1 - - [x] \"GET / HTTP/1.0\" 404 -"

/-- The record parsed from dashLine: the sentinel maps to 0 bytes. -/
def dashEntry : LogEntry :=
  { client := "10.0.0.1", log_time := "x", request_method := "GET",
    request_path := "/", request_protocol := "HTTP/1.0",
    response_code := 404, bytes_transferred := 0 }

/-- A line with trailing text after a digit run in the bytes position. -/
def trail1Line : String :=
  "1.2.3.4 - - [x] \"GET / HTTP/1.0\" 200 12abc"

/-- The record parsed from trail1Line: bytes 12, trailing text ignored. -/
def trail1Entry : LogEntry :=
  { client := "1.2.3.4", log_time := "x", request_method := "GET",
    request_path := "/", request_protocol := "HTTP/1.0",
    response_code := 200, bytes_transferred := 12 }

/-- A line whose bytes position holds a negative-looking number: the dash
alone matches the sentinel alternative and the 5 is trailing text. -/
def trail2Line : String :=
  "1.2.3.4 - - [x] \"GET / HTTP/1.0\" 200 -5"

/-- The record parsed from trail2Line: bytes taken from the sentinel. -/
def trail2Entry : LogEntry :=
  { client := "1.2.3.4", log_time := "x", request_method := "GET",
    request_path := "/", request_protocol := "HTTP/1.0",
    response_code := 200, bytes_transferred := 0 }

/-- The record collection of the specification's per-day example: dates
2023-01-02, 2023-01-01, 2023-01-02 in that order. -/
def c6sample : List LogEntry :=
  [{ client := "h1", log_time := "2023-01-02", request_method := "GET",
     request_path := "/a", request_protocol := "HTTP/1.0",
     response_code := 200, bytes_transferred := 10 },
   { client := "h2", log_time := "2023-01-01", request_method := "GET",
     request_path := "/b", request_protocol := "HTTP/1.0",
     response_code := 200, bytes_transferred := 20 },
   { client := "h3", log_time := "2023-01-02", request_method := "GET",
     request_path := "/c", request_protocol := "HTTP/1.0",
     response_code := 200, bytes_transferred := 30 }]

/-- One record of the specification's top-path example. -/
def c7entry (p : String) : LogEntry :=
  { client := "h", log_time := "d", request_method := "GET",
    request_path := p, request_protocol := "HTTP/1.0",
    response_code := 200, bytes_transferred := 1 }

/-- The record collection of the specification's top-path example: paths
/a three times, /b once, /c twice. -/
def c7sample : List LogEntry :=
  [c7entry "/a", c7entry "/b", c7entry "/a", c7entry "/c", c7entry "/c",
    c7entry "/a"]

/-! Lemmas about the matcher. -/

/-- Number of capturing groups of a pattern. -/
def numGroups : List RItem → Nat
  | [] => 0
  | RItem.lit _ :: items => numGroups items
  | RItem.plusGrp _ :: items => numGroups items + 1
  | RItem.rep3Grp _ :: items => numGroups items + 1
  | RItem.numOrDashGrp :: items => numGroups items + 1


theorem goPlus_shape {p : Char → Bool}
    {next : List Char → Option (List (List Char) × List Char)} {n : Nat}
    (hn : ∀ r caps rest, next r = some (caps, rest) → caps.length = n) :
    ∀ s acc caps rest, goPlus p next acc s = some (caps, rest) →
      caps.length = n + 1 := by
  intro s
  induction s with
  | nil =>
    intro acc caps rest h
    rw [goPlus.eq_1, Option.map_eq_some'] at h
    obtain ⟨⟨caps0, rest0⟩, hx, heq⟩ := h
    simp only [Prod.mk.injEq] at heq
    obtain ⟨h1, h2⟩ := heq
    subst h1
    simp [hn _ _ _ hx]
  | cons c cs ih =>
    intro acc caps rest h
    rw [goPlus.eq_2] at h
    split at h
    · cases hg : goPlus p next (c :: acc) cs with
      | some r =>
        rw [hg] at h
        cases r with
        | mk caps0 rest0 =>
          simp only [Option.some.injEq, Prod.mk.injEq] at h
          obtain ⟨h1, h2⟩ := h
          subst h1
          exact ih (c :: acc) caps0 rest0 hg
      | none =>
        rw [hg, Option.map_eq_some'] at h
        obtain ⟨⟨caps0, rest0⟩, hx, heq⟩ := h
        simp only [Prod.mk.injEq] at heq
        obtain ⟨h1, h2⟩ := heq
        subst h1
        simp [hn _ _ _ hx]
    · rw [Option.map_eq_some'] at h
      obtain ⟨⟨caps0, rest0⟩, hx, heq⟩ := h
      simp only [Prod.mk.injEq] at heq
      obtain ⟨h1, h2⟩ := heq
      subst h1
      simp [hn _ _ _ hx]

theorem rmatch_shape :
    ∀ (items : List RItem) (s : List Char) (caps : List (List Char))
      (rest : List Char),
      rmatch items s = some (caps, rest) → caps.length = numGroups items := by
  intro items
  induction items with
  | nil =>
    intro s caps rest h
    rw [rmatch.eq_def] at h
    simp only [Option.some.injEq, Prod.mk.injEq] at h
    obtain ⟨h1, h2⟩ := h
    subst h1
    rfl
  | cons it items ih =>
    cases it with
    | lit c =>
      intro s caps rest h
      rw [rmatch.eq_def] at h
      simp only at h
      split at h
      · split at h
        · exact ih _ _ _ h
        · simp at h
      · simp at h
    | plusGrp p =>
      intro s caps rest h
      rw [rmatch.eq_def] at h
      simp only at h
      split at h
      · split at h
        · exact goPlus_shape (fun r caps rest hh => ih r caps rest hh) _ _ _ _ h
        · simp at h
      · simp at h
    | rep3Grp p =>
      intro s caps rest h
      rw [rmatch.eq_def] at h
      simp only at h
      split at h
      · split at h
        · cases hr : rmatch items _ with
          | some pr =>
            rw [hr] at h
            simp only [Option.some.injEq, Prod.mk.injEq] at h
            obtain ⟨h1, h2⟩ := h
            subst h1
            simp [numGroups, ih _ _ _ hr]
          | none => rw [hr] at h; simp at h
        · simp at h
      · simp at h
    | numOrDashGrp =>
      intro s caps rest h
      rw [rmatch.eq_def] at h
      simp only at h
      rw [orElseO.eq_def] at h
      split at h
      · rename_i r heq
        cases r with
        | mk caps0 rest0 =>
          simp only [Option.some.injEq, Prod.mk.injEq] at h
          obtain ⟨h1, h2⟩ := h
          subst h1
          split at heq
          · split at heq
            · exact goPlus_shape (fun r caps rest hh => ih r caps rest hh) _ _ _ _ heq
            · simp at heq
          · simp at heq
      · rename_i hA
        split at h
        · rename_i rest1
          cases hr : rmatch items rest1 with
          | some pr =>
            rw [hr] at h
            simp only [Option.some.injEq, Prod.mk.injEq] at h
            obtain ⟨h1, h2⟩ := h
            subst h1
            simp [numGroups, ih _ _ _ hr]
          | none => rw [hr] at h; simp at h
        · simp at h

theorem goPlus_suffix {p : Char → Bool}
    {next : List Char → Option (List (List Char) × List Char)}
    (hn : ∀ r caps rest, next r = some (caps, rest) → rest <:+ r) :
    ∀ s acc caps rest, goPlus p next acc s = some (caps, rest) → rest <:+ s := by
  intro s
  induction s with
  | nil =>
    intro acc caps rest h
    rw [goPlus.eq_1, Option.map_eq_some'] at h
    obtain ⟨⟨caps0, rest0⟩, hx, heq⟩ := h
    simp only [Prod.mk.injEq] at heq
    obtain ⟨h1, h2⟩ := heq
    subst h2
    exact hn _ _ _ hx
  | cons c cs ih =>
    intro acc caps rest h
    rw [goPlus.eq_2] at h
    split at h
    · cases hg : goPlus p next (c :: acc) cs with
      | some r =>
        rw [hg] at h
        cases r with
        | mk caps0 rest0 =>
          simp only [Option.some.injEq, Prod.mk.injEq] at h
          obtain ⟨h1, h2⟩ := h
          subst h2
          exact (ih (c :: acc) caps0 rest0 hg).trans (List.suffix_cons c cs)
      | none =>
        rw [hg, Option.map_eq_some'] at h
        obtain ⟨⟨caps0, rest0⟩, hx, heq⟩ := h
        simp only [Prod.mk.injEq] at heq
        obtain ⟨h1, h2⟩ := heq
        subst h2
        exact hn _ _ _ hx
    · rw [Option.map_eq_some'] at h
      obtain ⟨⟨caps0, rest0⟩, hx, heq⟩ := h
      simp only [Prod.mk.injEq] at heq
      obtain ⟨h1, h2⟩ := heq
      subst h2
      exact hn _ _ _ hx

theorem rmatch_suffix :
    ∀ (items : List RItem) (s : List Char) (caps : List (List Char))
      (rest : List Char),
      rmatch items s = some (caps, rest) → rest <:+ s := by
  intro items
  induction items with
  | nil =>
    intro s caps rest h
    rw [rmatch.eq_def] at h
    simp only [Option.some.injEq, Prod.mk.injEq] at h
    obtain ⟨h1, h2⟩ := h
    subst h2
    exact List.suffix_refl s
  | cons it items ih =>
    cases it with
    | lit c =>
      intro s caps rest h
      rw [rmatch.eq_def] at h
      simp only at h
      split at h
      · rename_i d rest0
        split at h
        · exact (ih _ _ _ h).trans (List.suffix_cons d rest0)
        · simp at h
      · simp at h
    | plusGrp p =>
      intro s caps rest h
      rw [rmatch.eq_def] at h
      simp only at h
      split at h
      · rename_i c rest0
        split at h
        · exact (goPlus_suffix (fun r caps rest hh => ih r caps rest hh)
            _ _ _ _ h).trans (List.suffix_cons c rest0)
        · simp at h
      · simp at h
    | rep3Grp p =>
      intro s caps rest h
      rw [rmatch.eq_def] at h
      simp only at h
      split at h
      · rename_i a b c rest0
        split at h
        · cases hr : rmatch items rest0 with
          | some pr =>
            rw [hr] at h
            simp only [Option.some.injEq, Prod.mk.injEq] at h
            obtain ⟨h1, h2⟩ := h
            subst h2
            exact (ih _ _ _ hr).trans
              (((List.suffix_cons c rest0).trans
                (List.suffix_cons b (c :: rest0))).trans
                  (List.suffix_cons a (b :: c :: rest0)))
          | none => rw [hr] at h; simp at h
        · simp at h
      · simp at h
    | numOrDashGrp =>
      intro s caps rest h
      rw [rmatch.eq_def] at h
      simp only at h
      rw [orElseO.eq_def] at h
      split at h
      · rename_i r heq
        cases r with
        | mk caps0 rest0 =>
          simp only [Option.some.injEq, Prod.mk.injEq] at h
          obtain ⟨h1, h2⟩ := h
          subst h2
          split at heq
          · rename_i c rest1
            split at heq
            · exact (goPlus_suffix (fun r caps rest hh => ih r caps rest hh)
                _ _ _ _ heq).trans (List.suffix_cons c rest1)
            · simp at heq
          · simp at heq
      · rename_i hA
        split at h
        · rename_i rest1
          cases hr : rmatch items rest1 with
          | some pr =>
            rw [hr] at h
            simp only [Option.some.injEq, Prod.mk.injEq] at h
            obtain ⟨h1, h2⟩ := h
            subst h2
            exact (ih _ _ _ hr).trans (List.suffix_cons '-' rest1)
          | none => rw [hr] at h; simp at h
        · simp at h

theorem rmatch_plus_head {p : Char → Bool} {items : List RItem}
    {s : List Char} {caps : List (List Char)} {rest : List Char}
    (h : rmatch (RItem.plusGrp p :: items) s = some (caps, rest)) :
    ∃ c rest0, s = c :: rest0 ∧ p c = true := by
  rw [rmatch.eq_def] at h
  simp only at h
  split at h
  · rename_i c rest0
    split at h
    · rename_i hp
      exact ⟨c, rest0, rfl, hp⟩
    · simp at h
  · simp at h

theorem parseLine_of_rmatch {line : String} {c t m p pr st b : List Char}
    {rest : List Char}
    (h : rmatch logPattern line.data = some ([c, t, m, p, pr, st, b], rest)) :
    parseLine line = some (mkLogEntry c t m p pr st b) := by
  obtain ⟨ch, rest0, hdata, hns⟩ := rmatch_plus_head h
  have hsp : isPySpace ch = false := by
    simpa [nonSpace] using hns
  have hguard : line.data.all isPySpace = false := by
    rw [hdata]
    simp [hsp]
  simp [parseLine, hguard, h]

theorem counter_concat {α : Type} [DecidableEq α] (ys : List α) (x : α) :
    counter (ys ++ [x]) = counterAdd (counter ys) x := by
  simp [counter, List.foldl_append]

theorem keysOf_concat {α : Type} [DecidableEq α] (ys : List α) (x : α) :
    keysOf (ys ++ [x]) =
      if x ∈ keysOf ys then keysOf ys else keysOf ys ++ [x] := by
  simp [keysOf, List.foldl_append]

theorem mem_keysOf {α : Type} [DecidableEq α] (xs : List α) (a : α) :
    a ∈ keysOf xs ↔ a ∈ xs := by
  induction xs using List.reverseRecOn with
  | nil => simp [keysOf]
  | append_singleton ys x ih =>
    rw [keysOf_concat]
    by_cases hx : x ∈ keysOf ys
    · simp only [hx, if_true, ih, List.mem_append, List.mem_singleton]
      constructor
      · exact fun h => Or.inl h
      · rintro (h | rfl)
        · exact h
        · exact ih.mp hx
    · simp [hx, ih]

theorem keysOf_nodup {α : Type} [DecidableEq α] (xs : List α) :
    (keysOf xs).Nodup := by
  induction xs using List.reverseRecOn with
  | nil => simp [keysOf]
  | append_singleton ys x ih =>
    rw [keysOf_concat]
    by_cases hx : x ∈ keysOf ys
    · simpa [hx]
    · simp [hx, ih, List.nodup_append]

theorem counter_eq {α : Type} [DecidableEq α] (xs : List α) :
    counter xs = (keysOf xs).map (fun a => (a, xs.count a)) := by
  induction xs using List.reverseRecOn with
  | nil => simp [counter, keysOf]
  | append_singleton ys x ih =>
    rw [counter_concat, keysOf_concat, ih]
    by_cases hx : x ∈ keysOf ys
    · have hany : ((keysOf ys).map (fun a => (a, ys.count a))).any
          (fun pr => pr.1 = x) = true := by
        rw [List.any_eq_true]
        exact ⟨(x, ys.count x), List.mem_map.mpr ⟨x, hx, rfl⟩, by simp⟩
      rw [counterAdd, if_pos hany, List.map_map, if_pos hx]
      apply List.map_congr_left
      intro a _
      by_cases hax : a = x
      · subst hax
        simp [List.count_append]
      · simp [hax, List.count_append, List.count_singleton,
          Ne.symm hax]
    · have hany : ((keysOf ys).map (fun a => (a, ys.count a))).any
          (fun pr => pr.1 = x) = false := by
        rw [List.any_eq_false]
        rintro ⟨b, k⟩ hmem
        obtain ⟨a, ha, heq⟩ := List.mem_map.mp hmem
        simp only [Prod.mk.injEq] at heq
        obtain ⟨rfl, rfl⟩ := heq
        simp only [decide_eq_true_eq]
        intro hax
        exact hx (hax ▸ ha)
      rw [counterAdd, if_neg (by simp [hany]), if_neg hx, List.map_append]
      congr 1
      · apply List.map_congr_left
        intro a ha
        have hax : a ≠ x := fun hh => hx (hh ▸ ha)
        simp [List.count_append, List.count_singleton, Ne.symm hax]
      · have hxys : x ∉ ys := fun hh => hx ((mem_keysOf ys x).mpr hh)
        simp [List.count_append, List.count_eq_zero_of_not_mem hxys]

theorem counter_keys {α : Type} [DecidableEq α] (xs : List α) :
    (counter xs).map Prod.fst = keysOf xs := by
  rw [counter_eq, List.map_map]
  exact List.map_id _ ▸ List.map_congr_left (fun a _ => rfl)

theorem mem_counter {α : Type} [DecidableEq α] {xs : List α} {a : α} {k : Nat} :
    (a, k) ∈ counter xs ↔ a ∈ xs ∧ k = xs.count a := by
  rw [counter_eq]
  simp only [List.mem_map, Prod.mk.injEq]
  constructor
  · rintro ⟨b, hb, rfl, rfl⟩
    exact ⟨(mem_keysOf xs b).mp hb, rfl⟩
  · rintro ⟨ha, rfl⟩
    exact ⟨a, (mem_keysOf xs a).mpr ha, rfl, rfl⟩

theorem keysOf_pairwise_idx {α : Type} [DecidableEq α] (xs : List α) :
    (keysOf xs).Pairwise (fun a b => xs.indexOf a < xs.indexOf b) := by
  induction xs using List.reverseRecOn with
  | nil => simp [keysOf]
  | append_singleton ys x ih =>
    rw [keysOf_concat]
    by_cases hx : x ∈ keysOf ys
    · rw [if_pos hx]
      apply List.Pairwise.imp_of_mem ?_ ih
      intro a b ha hb hab
      rw [List.indexOf_append_of_mem ((mem_keysOf ys a).mp ha),
        List.indexOf_append_of_mem ((mem_keysOf ys b).mp hb)]
      exact hab
    · rw [if_neg hx]
      rw [List.pairwise_append]
      refine ⟨?_, by simp, ?_⟩
      · apply List.Pairwise.imp_of_mem ?_ ih
        intro a b ha hb hab
        rw [List.indexOf_append_of_mem ((mem_keysOf ys a).mp ha),
          List.indexOf_append_of_mem ((mem_keysOf ys b).mp hb)]
        exact hab
      · intro a ha b hb
        rw [List.mem_singleton] at hb
        subst hb
        have hays : a ∈ ys := (mem_keysOf ys a).mp ha
        have hxys : b ∉ ys := fun hh => hx ((mem_keysOf ys b).mpr hh)
        rw [List.indexOf_append_of_mem hays,
          List.indexOf_append_of_not_mem hxys]
        calc ys.indexOf a < ys.length := List.indexOf_lt_length.mpr hays
          _ ≤ ys.length + List.indexOf b [b] := Nat.le_add_right _ _
theorem insStable_perm {α : Type} (le : α → α → Bool) (x : α) (l : List α) :
    (insStable le x l).Perm (x :: l) := by
  induction l with
  | nil => simp [insStable]
  | cons y ys ih =>
    simp only [insStable]
    split
    · exact List.Perm.refl _
    · exact (List.Perm.cons y ih).trans (List.Perm.swap x y ys)

theorem sortStable_perm {α : Type} (le : α → α → Bool) (l : List α) :
    (sortStable le l).Perm l := by
  induction l with
  | nil => simp [sortStable]
  | cons x xs ih =>
    simp only [sortStable]
    exact (insStable_perm le x (sortStable le xs)).trans (List.Perm.cons x ih)

theorem insStable_pairwise {α : Type} {le : α → α → Bool} {P : α → α → Prop}
    {x : α} {l : List α}
    (hx : ∀ y ∈ l, P x y)
    (hl : l.Pairwise (fun a b => le b a = false ∨ P a b)) :
    (insStable le x l).Pairwise (fun a b => le b a = false ∨ P a b) := by
  induction l with
  | nil => simp [insStable]
  | cons y ys ih =>
    simp only [insStable]
    split
    · constructor
      · intro b hb
        exact Or.inr (hx b hb)
      · exact hl
    · rename_i hxy
      rw [List.pairwise_cons] at hl
      obtain ⟨hy, hys⟩ := hl
      constructor
      · intro b hb
        have hb' := (insStable_perm le x ys).mem_iff.mp hb
        rw [List.mem_cons] at hb'
        rcases hb' with rfl | hb'
        · exact Or.inl (by simpa using hxy)
        · exact hy b hb'
      · exact ih (fun b hb => hx b (List.mem_cons_of_mem y hb)) hys

theorem sortStable_pairwise {α : Type} (le : α → α → Bool) {P : α → α → Prop} :
    ∀ {l : List α}, l.Pairwise P →
      (sortStable le l).Pairwise (fun a b => le b a = false ∨ P a b) := by
  intro l hl
  induction l with
  | nil => simp [sortStable]
  | cons x xs ih =>
    rw [List.pairwise_cons] at hl
    obtain ⟨hx, hxs⟩ := hl
    simp only [sortStable]
    apply insStable_pairwise
    · intro y hy
      exact hx y ((sortStable_perm le xs).mem_iff.mp hy)
    · exact ih hxs

theorem insStable_sorted {α : Type} {le : α → α → Bool}
    (htrans : ∀ a b c, le a b = true → le b c = true → le a c = true)
    (htot : ∀ a b, le a b = true ∨ le b a = true)
    {x : α} {l : List α} (hl : l.Pairwise (fun a b => le a b = true)) :
    (insStable le x l).Pairwise (fun a b => le a b = true) := by
  induction l with
  | nil => simp [insStable]
  | cons y ys ih =>
    rw [List.pairwise_cons] at hl
    obtain ⟨hy, hys⟩ := hl
    simp only [insStable]
    split
    · rename_i hxy
      constructor
      · intro b hb
        rw [List.mem_cons] at hb
        rcases hb with rfl | hb
        · exact hxy
        · exact htrans x y b hxy (hy b hb)
      · exact List.Pairwise.cons hy hys
    · rename_i hxy
      have hyx : le y x = true := by
        rcases htot x y with h | h
        · exact absurd h hxy
        · exact h
      constructor
      · intro b hb
        have hb' := (insStable_perm le x ys).mem_iff.mp hb
        rw [List.mem_cons] at hb'
        rcases hb' with rfl | hb'
        · exact hyx
        · exact hy b hb'
      · exact ih hys

theorem sortStable_sorted {α : Type} (le : α → α → Bool)
    (htrans : ∀ a b c, le a b = true → le b c = true → le a c = true)
    (htot : ∀ a b, le a b = true ∨ le b a = true) :
    ∀ l : List α, (sortStable le l).Pairwise (fun a b => le a b = true) := by
  intro l
  induction l with
  | nil => simp [sortStable]
  | cons x xs ih =>
    simp only [sortStable]
    exact insStable_sorted htrans htot ih
theorem analyze_logs_nil (prev : List LogEntry) : analyze_logs prev [] = prev :=
  rfl

theorem analyze_logs_cons (prev : List LogEntry) (l : String) (ls : List String) :
    analyze_logs prev (l :: ls) =
      analyze_logs (prev ++ (parseLine l).toList) ls := by
  cases h : parseLine l <;> simp [analyze_logs, h]

theorem analyze_logs_append (prev : List LogEntry) (lines : List String) :
    analyze_logs prev lines = prev ++ analyze_logs [] lines := by
  induction lines generalizing prev with
  | nil => simp [analyze_logs_nil]
  | cons l ls ih =>
    rw [analyze_logs_cons, analyze_logs_cons [] l ls, ih,
      ih ([] ++ (parseLine l).toList)]
    simp

theorem analyze_logs_flatten (lines : List String) :
    analyze_logs [] lines =
      (lines.map (fun l => (parseLine l).toList)).flatten := by
  induction lines with
  | nil => rfl
  | cons l ls ih =>
    rw [analyze_logs_cons, analyze_logs_append, ih]
    simp

theorem find_map_key {α : Type} [DecidableEq α] (f : α → Nat) :
    ∀ (ks : List α) (d : α), d ∈ ks →
      (ks.map (fun a => (a, f a))).find? (fun pr => pr.1 = d) = some (d, f d) := by
  intro ks
  induction ks with
  | nil => simp
  | cons a ks ih =>
    intro d hd
    by_cases had : a = d
    · subst had
      simp
    · rw [List.mem_cons] at hd
      rcases hd with rfl | hd
      · exact absurd rfl had
      · rw [List.map_cons, List.find?_cons_of_neg _ (by simpa using had)]
        exact ih d hd

theorem lookupCount_counter {α : Type} [DecidableEq α] (xs : List α) (d : α)
    (hd : d ∈ xs) :
    lookupCount (counter xs) d = xs.count d := by
  rw [lookupCount, counter_eq,
    find_map_key (fun a => xs.count a) (keysOf xs) d ((mem_keysOf xs d).mpr hd)]

theorem lex_of_lexLe_ne :
    ∀ as bs : List Char, lexLe as bs = true → as ≠ bs →
      List.Lex (fun c d : Char => c < d) as bs := by
  intro as
  induction as with
  | nil =>
    intro bs h hne
    cases bs with
    | nil => exact absurd rfl hne
    | cons b bs0 => exact List.Lex.nil
  | cons a as0 ih =>
    intro bs h hne
    cases bs with
    | nil => simp [lexLe] at h
    | cons b bs0 =>
      simp only [lexLe] at h
      by_cases h1 : a.toNat < b.toNat
      · exact List.Lex.rel h1
      · rw [if_neg h1] at h
        by_cases h2 : b.toNat < a.toNat
        · rw [if_pos h2] at h
          exact absurd h (by simp)
        · rw [if_neg h2] at h
          have hab : a = b :=
            Char.ext (UInt32.toNat.inj
              (Nat.le_antisymm (Nat.le_of_not_lt h2) (Nat.le_of_not_lt h1)))
          subst hab
          have hne0 : as0 ≠ bs0 := fun hh => hne (by rw [hh])
          exact List.Lex.cons (ih bs0 h hne0)

theorem lexLe_total : ∀ as bs : List Char,
    lexLe as bs = true ∨ lexLe bs as = true := by
  intro as
  induction as with
  | nil => intro bs; left; rfl
  | cons a as0 ih =>
    intro bs
    cases bs with
    | nil => right; rfl
    | cons b bs0 =>
      simp only [lexLe]
      by_cases h1 : a.toNat < b.toNat
      · left
        rw [if_pos h1]
      · by_cases h2 : b.toNat < a.toNat
        · right
          rw [if_pos h2]
        · rw [if_neg h1, if_neg h2, if_neg h2, if_neg h1]
          exact ih bs0

theorem lexLe_trans : ∀ as bs cs : List Char,
    lexLe as bs = true → lexLe bs cs = true → lexLe as cs = true := by
  intro as
  induction as with
  | nil => intro bs cs h1 h2; rfl
  | cons a as0 ih =>
    intro bs cs h1 h2
    cases bs with
    | nil => simp [lexLe] at h1
    | cons b bs0 =>
      cases cs with
      | nil => simp [lexLe] at h2
      | cons c cs0 =>
        simp only [lexLe] at h1 h2 ⊢
        by_cases hab : a.toNat < b.toNat
        · by_cases hbc : b.toNat < c.toNat
          · rw [if_pos (Nat.lt_trans hab hbc)]
          · rw [if_neg hbc] at h2
            by_cases hcb : c.toNat < b.toNat
            · rw [if_pos hcb] at h2
              exact absurd h2 (by simp)
            · have hbceq : b.toNat = c.toNat :=
                Nat.le_antisymm (Nat.le_of_not_lt hcb) (Nat.le_of_not_lt hbc)
              rw [if_pos (hbceq ▸ hab)]
        · rw [if_neg hab] at h1
          by_cases hba : b.toNat < a.toNat
          · rw [if_pos hba] at h1
            exact absurd h1 (by simp)
          · have habeq : a.toNat = b.toNat :=
              Nat.le_antisymm (Nat.le_of_not_lt hba) (Nat.le_of_not_lt hab)
            rw [if_neg hba] at h1
            by_cases hbc : b.toNat < c.toNat
            · rw [if_pos (habeq ▸ hbc)]
            · rw [if_neg hbc] at h2
              by_cases hcb : c.toNat < b.toNat
              · rw [if_pos hcb] at h2
                exact absurd h2 (by simp)
              · have hbceq : b.toNat = c.toNat :=
                  Nat.le_antisymm (Nat.le_of_not_lt hcb) (Nat.le_of_not_lt hbc)
                rw [if_neg hcb] at h2
                rw [if_neg (by omega), if_neg (by omega)]
                exact ih bs0 cs0 h1 h2
theorem strLt_of_strLeB_ne {a b : String} (h : strLeB a b = true)
    (hne : a ≠ b) : a < b := by
  rw [String.lt_iff_toList_lt]
  exact lex_of_lexLe_ne a.data b.data h (fun hd => hne (String.ext hd))

theorem strLeB_total : ∀ a b : String, strLeB a b = true ∨ strLeB b a = true :=
  fun a b => lexLe_total a.data b.data

theorem strLeB_trans : ∀ a b c : String,
    strLeB a b = true → strLeB b c = true → strLeB a c = true :=
  fun a b c h1 h2 => lexLe_trans a.data b.data c.data h1 h2

theorem keysOf_length {α : Type} [DecidableEq α] (xs : List α) :
    (keysOf xs).length = xs.toFinset.card := by
  have h1 : (keysOf xs).toFinset = xs.toFinset := by
    ext a
    simp [mem_keysOf]
  rw [← h1, List.toFinset_card_of_nodup (keysOf_nodup xs)]

theorem leCnt_trans {α : Type} :
    ∀ a b c : α × Nat, decide (b.2 ≤ a.2) = true → decide (c.2 ≤ b.2) = true →
      decide (c.2 ≤ a.2) = true := by
  intro a b c h1 h2
  simp only [decide_eq_true_eq] at h1 h2 ⊢
  omega

theorem leCnt_total {α : Type} :
    ∀ a b : α × Nat, decide (b.2 ≤ a.2) = true ∨ decide (a.2 ≤ b.2) = true := by
  intro a b
  simp only [decide_eq_true_eq]
  omega

theorem mostCommon_counter_sorted {α : Type} [DecidableEq α]
    (xs : List α) (n : Nat) :
    (mostCommon (counter xs) n).Pairwise (fun a b => b.2 ≤ a.2) := by
  have hs := sortStable_sorted (fun a b : α × Nat => decide (b.2 ≤ a.2))
    leCnt_trans leCnt_total (counter xs)
  have ht := List.Pairwise.sublist (List.take_sublist n _) hs
  exact ht.imp (fun h => by simpa using h)

theorem mostCommon_counter_mem {α : Type} [DecidableEq α]
    {xs : List α} {n : Nat} {pr : α × Nat}
    (h : pr ∈ mostCommon (counter xs) n) :
    pr.1 ∈ xs ∧ pr.2 = xs.count pr.1 := by
  have h1 : pr ∈ sortStable (fun a b : α × Nat => decide (b.2 ≤ a.2))
      (counter xs) := (List.take_sublist n _).subset h
  have h2 : pr ∈ counter xs :=
    (sortStable_perm _ (counter xs)).mem_iff.mp h1
  cases pr with
  | mk a k => exact mem_counter.mp h2

theorem mostCommon_counter_length {α : Type} [DecidableEq α]
    (xs : List α) (n : Nat) :
    (mostCommon (counter xs) n).length = min n xs.toFinset.card := by
  rw [mostCommon, List.length_take,
    (sortStable_perm _ (counter xs)).length_eq, counter_eq,
    List.length_map, keysOf_length]

theorem mostCommon_counter_complete {α : Type} [DecidableEq α]
    {xs : List α} {n : Nat} {a : α}
    (ha : a ∈ xs) (hnot : a ∉ (mostCommon (counter xs) n).map Prod.fst) :
    ∀ pr ∈ mostCommon (counter xs) n, xs.count a ≤ pr.2 := by
  intro pr hpr
  set srt := sortStable (fun a b : α × Nat => decide (b.2 ≤ a.2)) (counter xs)
    with hsrt
  have hsorted : srt.Pairwise (fun a b : α × Nat => decide (b.2 ≤ a.2) = true) :=
    sortStable_sorted (fun a b : α × Nat => decide (b.2 ≤ a.2))
      leCnt_trans leCnt_total (counter xs)
  have hmem : (a, xs.count a) ∈ srt :=
    (sortStable_perm _ (counter xs)).mem_iff.mpr (mem_counter.mpr ⟨ha, rfl⟩)
  rw [← List.take_append_drop n srt, List.pairwise_append] at hsorted
  obtain ⟨_, _, hcross⟩ := hsorted
  rw [← List.take_append_drop n srt, List.mem_append] at hmem
  rcases hmem with hmem | hmem
  · exact absurd (List.mem_map.mpr ⟨(a, xs.count a), hmem, rfl⟩) hnot
  · have := hcross pr hpr (a, xs.count a) hmem
    simpa using this

theorem mostCommon_counter_ties {α : Type} [DecidableEq α]
    (xs : List α) (n : Nat) :
    (mostCommon (counter xs) n).Pairwise
      (fun p q => p.2 = q.2 → xs.indexOf p.1 < xs.indexOf q.1) := by
  have hpc : (counter xs).Pairwise
      (fun p q : α × Nat => xs.indexOf p.1 < xs.indexOf q.1) := by
    rw [counter_eq, List.pairwise_map]
    exact keysOf_pairwise_idx xs
  have hps := sortStable_pairwise (fun a b : α × Nat => decide (b.2 ≤ a.2))
    hpc
  have ht := List.Pairwise.sublist (List.take_sublist n _) hps
  apply ht.imp
  intro p q hpq heq
  rcases hpq with hfalse | hidx
  · simp only [decide_eq_false_iff_not] at hfalse
    exact absurd (le_of_eq heq) hfalse
  · exact hidx
/-- C1: every input line the fixed grammar matches produces exactly one
record, appended to the collection, whose seven fields are populated from
the seven captured groups, with status_code equal to the integer value of
the status group and bytes_sent an integer. -/
theorem claim1_matched_line_one_record (line : String)
    (caps : List (List Char)) (rest : List Char)
    (h : rmatch logPattern line.data = some (caps, rest)) :
    ∃ c t m p pr st b, caps = [c, t, m, p, pr, st, b] ∧
      parseLine line = some (mkLogEntry c t m p pr st b) ∧
      (∀ prev, analyze_logs prev [line] = prev ++ [mkLogEntry c t m p pr st b]) ∧
      (mkLogEntry c t m p pr st b).response_code = (digitsVal st : Int) ∧
      (mkLogEntry c t m p pr st b).bytes_transferred =
        (if b = ['-'] then 0 else (digitsVal b : Int)) := by
  have hlen : caps.length = 7 := by
    have h7 : numGroups logPattern = 7 := rfl
    rw [← h7]
    exact rmatch_shape logPattern line.data caps rest h
  rcases caps with _|⟨c, _|⟨t, _|⟨m, _|⟨p, _|⟨pr, _|⟨st, _|⟨b, _|⟨x, caps0⟩⟩⟩⟩⟩⟩⟩⟩
  · simp at hlen
  · simp at hlen
  · simp at hlen
  · simp at hlen
  · simp at hlen
  · simp at hlen
  · simp at hlen
  · refine ⟨c, t, m, p, pr, st, b, rfl, parseLine_of_rmatch h, ?_, rfl, rfl⟩
    intro prev
    rw [analyze_logs_cons, analyze_logs_nil, parseLine_of_rmatch h]
    rfl
  · simp at hlen

/-- Witness for C1 at the specification's end-to-end example line. -/
theorem claim1_witness :
    ∃ c t m p pr st b, exCaps = [c, t, m, p, pr, st, b] ∧
      parseLine exLine = some (mkLogEntry c t m p pr st b) ∧
      (∀ prev, analyze_logs prev [exLine] = prev ++ [mkLogEntry c t m p pr st b]) ∧
      (mkLogEntry c t m p pr st b).response_code = (digitsVal st : Int) ∧
      (mkLogEntry c t m p pr st b).bytes_transferred =
        (if b = ['-'] then 0 else (digitsVal b : Int)) :=
  claim1_matched_line_one_record exLine exCaps [] (by decide)

/-- C2: a line the grammar does not match, blank and whitespace-only lines
included, produces no record and leaves the collection unchanged (the
model is a total function, so no error is raised). -/
theorem claim2_unmatched_line_no_record (prev : List LogEntry) (line : String)
    (h : rmatch logPattern line.data = none) :
    analyze_logs prev [line] = prev := by
  rw [analyze_logs_cons, analyze_logs_nil]
  have hp : parseLine line = none := by
    simp [parseLine, h]
  rw [hp]
  simp

/-- Witness for C2 on an empty line and on a malformed line, against a
nonempty previous collection. -/
theorem claim2_witness :
    analyze_logs [exEntry] [""] = [exEntry] ∧
      analyze_logs [exEntry] ["definitely not an access log line"] = [exEntry] :=
  ⟨claim2_unmatched_line_no_record [exEntry] "" (by decide),
    claim2_unmatched_line_no_record [exEntry]
      "definitely not an access log line" (by decide)⟩

/-- C3: for a matched line, when the captured timestamp parses under the
strptime format the record's date field holds it reformatted as Y-m-d, and
on any parse failure the record still exists with the timestamp verbatim. -/
theorem claim3_timestamp_normalization (line : String)
    (c t m p pr st b : List Char) (rest : List Char)
    (h : rmatch logPattern line.data = some ([c, t, m, p, pr, st, b], rest)) :
    ∃ e, parseLine line = some e ∧
      ((∃ ymd, strptimeDbY t = some ymd ∧ e.log_time = fmtYMD ymd) ∨
        (strptimeDbY t = none ∧ e.log_time = String.mk t)) := by
  refine ⟨mkLogEntry c t m p pr st b, parseLine_of_rmatch h, ?_⟩
  cases hts : strptimeDbY t with
  | some ymd =>
    left
    exact ⟨ymd, rfl, by simp [mkLogEntry, dateFormatted, hts]⟩
  | none =>
    right
    exact ⟨rfl, by simp [mkLogEntry, dateFormatted, hts]⟩

/-- Witness for C3: the bad-timestamp line keeps its timestamp verbatim,
and concretely the good and bad example lines parse to the expected
records. -/
theorem claim3_witness :
    (∃ e, parseLine badTsLine = some e ∧
      ((∃ ymd, strptimeDbY "not-a-date".data = some ymd ∧
          e.log_time = fmtYMD ymd) ∨
        (strptimeDbY "not-a-date".data = none ∧
          e.log_time = String.mk "not-a-date".data))) ∧
      parseLine badTsLine = some badTsEntry ∧
      parseLine exLine = some exEntry :=
  ⟨claim3_timestamp_normalization badTsLine "127.0.0.1".data "not-a-date".data
      "GET".data "/".data "HTTP/1.0".data "200".data "5".data [] (by decide),
    by decide, by decide⟩
/-- C4 counterexample: the persisted JSON object of the example record does
not use the specification's LogRecord field names: save_to_json writes the
keys client, log_time, request_method, request_path, request_protocol,
response_code, bytes_transferred instead. -/
theorem claim4_counterexample :
    save_to_json [exEntry] = [entryJsonPairs exEntry] ∧
      (entryJsonPairs exEntry).map Prod.fst ≠ specLogRecordFields :=
  ⟨rfl, by decide⟩

/-- C4 amended: every object of the persisted parsed-record array is the
serialization of one record of the collection and has exactly the seven
keys client, log_time, request_method, request_path, request_protocol,
response_code, bytes_transferred, in that order, with the record's parsed
values. -/
theorem claim4_amended_json_keys (entries : List LogEntry) :
    ∀ o ∈ save_to_json entries,
      (∃ e ∈ entries, o = entryJsonPairs e) ∧
        o.map Prod.fst =
          ["client", "log_time", "request_method", "request_path",
            "request_protocol", "response_code", "bytes_transferred"] := by
  intro o ho
  obtain ⟨e, he, rfl⟩ := List.mem_map.mp ho
  exact ⟨⟨e, he, rfl⟩, rfl⟩

/-- Witness for the amended C4 on a one-record collection. -/
theorem claim4_witness :
    (∃ e ∈ [exEntry], entryJsonPairs exEntry = entryJsonPairs e) ∧
      (entryJsonPairs exEntry).map Prod.fst =
        ["client", "log_time", "request_method", "request_path",
          "request_protocol", "response_code", "bytes_transferred"] :=
  claim4_amended_json_keys [exEntry] (entryJsonPairs exEntry)
    (by simp [save_to_json])

theorem mkLogEntry_bytes_nonneg (c t m p pr st b : List Char) :
    0 ≤ (mkLogEntry c t m p pr st b).bytes_transferred := by
  show (0 : Int) ≤ if b = ['-'] then 0 else (digitsVal b : Int)
  split
  · exact le_refl 0
  · exact Int.natCast_nonneg _

theorem parseLine_bytes_nonneg {line : String} {e : LogEntry}
    (h : parseLine line = some e) : 0 ≤ e.bytes_transferred := by
  rw [parseLine] at h
  split at h
  · simp at h
  · split at h
    · rw [Option.some.injEq] at h
      subst h
      exact mkLogEntry_bytes_nonneg _ _ _ _ _ _ _
    · simp at h

/-- C8: every record entering the collection has a non-negative
bytes_sent; a captured dash sentinel is stored as exactly 0 and a digit
run as its integer value. -/
theorem claim8_bytes_invariant (lines : List String) :
    (∀ e ∈ analyze_logs [] lines, 0 ≤ e.bytes_transferred) ∧
      (∀ (line : String) (c t m p pr st b : List Char) (rest : List Char)
          (e : LogEntry),
        rmatch logPattern line.data = some ([c, t, m, p, pr, st, b], rest) →
        parseLine line = some e →
        (b = ['-'] → e.bytes_transferred = 0) ∧
        (b ≠ ['-'] → e.bytes_transferred = (digitsVal b : Int)) ∧
        0 ≤ e.bytes_transferred) := by
  constructor
  · intro e he
    rw [analyze_logs_flatten, List.mem_flatten] at he
    obtain ⟨l', hl', hel⟩ := he
    obtain ⟨line, _, rfl⟩ := List.mem_map.mp hl'
    cases hp : parseLine line with
    | none => rw [hp] at hel; simp at hel
    | some e0 =>
      rw [hp] at hel
      simp only [Option.toList_some, List.mem_singleton] at hel
      subst hel
      exact parseLine_bytes_nonneg hp
  · intro line c t m p pr st b rest e hm hp
    have hpl := parseLine_of_rmatch hm
    rw [hpl, Option.some.injEq] at hp
    subst hp
    refine ⟨?_, ?_, parseLine_bytes_nonneg hpl⟩
    · intro hb
      simp [mkLogEntry, hb]
    · intro hb
      simp [mkLogEntry, hb]

/-- Witness for C8 on the dash-sentinel line and the example line. -/
theorem claim8_witness :
    dashEntry.bytes_transferred = 0 ∧ 0 ≤ exEntry.bytes_transferred :=
  ⟨(((claim8_bytes_invariant []).2 dashLine "10.0.0.1".data "x".data
      "GET".data "/".data "HTTP/1.0".data "404".data ['-'] [] dashEntry
      (by decide) (by decide)).1 rfl),
    ((claim8_bytes_invariant [exLine]).1 exEntry (by decide))⟩

/-- C9: matching is anchored only at the start of the line: whatever the
matcher consumes, the remainder is a suffix of the line that is simply
ignored, and concretely a line ending in 200 12abc yields bytes_sent 12
while a line ending in 200 -5 matches the dash sentinel and yields
bytes_sent 0, although neither line as a whole conforms to the grammar
(the matcher leaves nonempty trailing text on both). -/
theorem claim9_no_end_anchor :
    (∀ (s : List Char) (caps : List (List Char)) (rest : List Char),
        rmatch logPattern s = some (caps, rest) → rest <:+ s) ∧
      rmatch logPattern trail1Line.data =
        some (["1.2.3.4".data, "x".data, "GET".data, "/".data,
          "HTTP/1.0".data, "200".data, "12".data], "abc".data) ∧
      parseLine trail1Line = some trail1Entry ∧
      trail1Entry.bytes_transferred = 12 ∧
      rmatch logPattern trail2Line.data =
        some (["1.2.3.4".data, "x".data, "GET".data, "/".data,
          "HTTP/1.0".data, "200".data, ['-']], "5".data) ∧
      parseLine trail2Line = some trail2Entry ∧
      trail2Entry.bytes_transferred = 0 := by
  refine ⟨fun s caps rest h => rmatch_suffix logPattern s caps rest h,
    ?_, ?_, ?_, ?_, ?_, ?_⟩ <;> decide

/-- Witness for C9's general part at the first trailing-text line. -/
theorem claim9_witness : ("abc".data : List Char) <:+ trail1Line.data :=
  claim9_no_end_anchor.1 trail1Line.data
    (["1.2.3.4".data, "x".data, "GET".data, "/".data, "HTTP/1.0".data,
      "200".data, "12".data]) "abc".data (by decide)

/-- C10: analyze_logs never clears or mutates existing records: the
collection after a call is the previous collection followed by the newly
parsed records in source-line order, and a second identical call
accumulates the same records again. -/
theorem claim10_accumulation (prev : List LogEntry) (lines : List String) :
    analyze_logs prev lines = prev ++ analyze_logs [] lines ∧
      analyze_logs prev lines =
        prev ++ (lines.map (fun l => (parseLine l).toList)).flatten ∧
      analyze_logs (analyze_logs prev lines) lines =
        prev ++ analyze_logs [] lines ++ analyze_logs [] lines := by
  refine ⟨analyze_logs_append prev lines, ?_, ?_⟩
  · rw [analyze_logs_append, analyze_logs_flatten]
  · rw [analyze_logs_append (analyze_logs prev lines) lines,
      analyze_logs_append prev lines, List.append_assoc]
/-- C5: the report carries total_requests equal to the record count,
unique_clients equal to the number of distinct clients,
total_bytes_transferred equal to the sum of bytes_sent, an
average_bytes_per_request that is the exact quotient and exactly 0 on an
empty collection (never a division error), the method and status-code
frequency mappings, and the top-10 path mapping (descending by count,
correct counts, at most ten entries). -/
theorem claim5_report_contents (entries : List LogEntry) :
    (generate_analysis_report entries).total_requests = entries.length ∧
    (generate_analysis_report entries).unique_clients =
      (entries.map (fun e => e.client)).toFinset.card ∧
    (generate_analysis_report entries).total_bytes_transferred =
      (entries.map (fun e => e.bytes_transferred)).sum ∧
    (entries.length = 0 →
      (generate_analysis_report entries).average_bytes_per_request = 0) ∧
    (0 < entries.length →
      (generate_analysis_report entries).average_bytes_per_request =
        ((entries.map (fun e => e.bytes_transferred)).sum : ℚ) /
          (entries.length : ℚ)) ∧
    (∀ (me : String) (k : Nat),
      (me, k) ∈ (generate_analysis_report entries).http_methods_count ↔
        me ∈ entries.map (fun e => e.request_method) ∧
          k = (entries.map (fun e => e.request_method)).count me) ∧
    (∀ (sc : Int) (k : Nat),
      (sc, k) ∈ (generate_analysis_report entries).status_codes_count ↔
        sc ∈ entries.map (fun e => e.response_code) ∧
          k = (entries.map (fun e => e.response_code)).count sc) ∧
    (generate_analysis_report entries).top_10_paths.Pairwise
      (fun a b => b.2 ≤ a.2) ∧
    (∀ pr ∈ (generate_analysis_report entries).top_10_paths,
      pr.1 ∈ entries.map (fun e => e.request_path) ∧
        pr.2 = (entries.map (fun e => e.request_path)).count pr.1) ∧
    (generate_analysis_report entries).top_10_paths.length =
      min 10 (entries.map (fun e => e.request_path)).toFinset.card := by
  refine ⟨rfl, (List.card_toFinset _).symm, rfl, ?_, ?_,
    fun me k => mem_counter, fun sc k => mem_counter,
    mostCommon_counter_sorted _ 10,
    fun _pr hpr => mostCommon_counter_mem hpr,
    mostCommon_counter_length _ 10⟩
  · intro h0
    simp [generate_analysis_report, h0]
  · intro hpos
    simp only [generate_analysis_report]
    rw [if_pos hpos]

/-- Witness for C5 on the one-record example collection: one request, and
the method mapping holds GET with count 1; unique client count evaluates
to 1. -/
theorem claim5_witness :
    (generate_analysis_report [exEntry]).total_requests = [exEntry].length ∧
      ("GET", 1) ∈ (generate_analysis_report [exEntry]).http_methods_count ∧
      (generate_analysis_report [exEntry]).unique_clients =
        ([exEntry].map (fun e => e.client)).toFinset.card :=
  ⟨(claim5_report_contents [exEntry]).1,
    ((claim5_report_contents [exEntry]).2.2.2.2.2.1 "GET" 1).mpr (by decide),
    (claim5_report_contents [exEntry]).2.1⟩

/-- C6: the per-day aggregate lists the distinct date strings of the
collection in strictly ascending lexicographic order, each paired with its
occurrence count. -/
theorem claim6_daily_trend (entries : List LogEntry) :
    ((plot_daily_requests_trend entries).map Prod.fst).Pairwise
        (fun a b => a < b) ∧
      (∀ d, d ∈ (plot_daily_requests_trend entries).map Prod.fst ↔
        d ∈ entries.map (fun e => e.log_time)) ∧
      (∀ pr ∈ plot_daily_requests_trend entries,
        pr.2 = (entries.map (fun e => e.log_time)).count pr.1) := by
  have hr : plot_daily_requests_trend entries =
      (sortStable strLeB (keysOf (entries.map (fun e => e.log_time)))).map
        (fun d => (d, lookupCount (counter (entries.map (fun e => e.log_time))) d)) := by
    simp only [plot_daily_requests_trend]
    rw [counter_keys]
  have hfst : (plot_daily_requests_trend entries).map Prod.fst =
      sortStable strLeB (keysOf (entries.map (fun e => e.log_time))) := by
    rw [hr, List.map_map]
    exact (List.map_congr_left fun a _ => rfl).trans (List.map_id _)
  have hs := sortStable_sorted strLeB strLeB_trans strLeB_total
    (keysOf (entries.map (fun e => e.log_time)))
  have hnd : (sortStable strLeB (keysOf (entries.map (fun e => e.log_time)))).Nodup :=
    (sortStable_perm strLeB _).symm.nodup
      (keysOf_nodup (entries.map (fun e => e.log_time)))
  refine ⟨?_, ?_, ?_⟩
  · rw [hfst]
    exact (hs.and hnd).imp (fun h => strLt_of_strLeB_ne h.1 h.2)
  · intro d
    rw [hfst, (sortStable_perm strLeB _).mem_iff, mem_keysOf]
  · intro pr hpr
    rw [hr] at hpr
    obtain ⟨d, hd, rfl⟩ := List.mem_map.mp hpr
    have hdm : d ∈ entries.map (fun e => e.log_time) :=
      (mem_keysOf _ d).mp ((sortStable_perm strLeB _).mem_iff.mp hd)
    exact lookupCount_counter _ d hdm

/-- Witness for C6 on the specification's example dates: the aggregate is
exactly the expected ordered pair list, and its first entry's count is as
the theorem states. -/
theorem claim6_witness :
    plot_daily_requests_trend c6sample = [("2023-01-01", 1), ("2023-01-02", 2)] ∧
      (("2023-01-01", 1) : String × Nat).2 =
        (c6sample.map (fun e => e.log_time)).count ("2023-01-01", 1).1 :=
  ⟨by decide, (claim6_daily_trend c6sample).2.2 ("2023-01-01", 1) (by decide)⟩

/-- C7: the top-n path aggregate pairs path values with their frequency
counts, sorted descending by count and truncated to the n highest; every
distinct path left out has a count at most every retained count, and ties
between equal counts keep the first-encountered order of the paths. -/
theorem claim7_top_paths (entries : List LogEntry) (n : Nat) :
    (plot_top_requested_paths entries n).Pairwise (fun a b => b.2 ≤ a.2) ∧
      (∀ pr ∈ plot_top_requested_paths entries n,
        pr.1 ∈ entries.map (fun e => e.request_path) ∧
          pr.2 = (entries.map (fun e => e.request_path)).count pr.1) ∧
      (plot_top_requested_paths entries n).length =
        min n (entries.map (fun e => e.request_path)).toFinset.card ∧
      (∀ a ∈ entries.map (fun e => e.request_path),
        a ∉ (plot_top_requested_paths entries n).map Prod.fst →
          ∀ pr ∈ plot_top_requested_paths entries n,
            (entries.map (fun e => e.request_path)).count a ≤ pr.2) ∧
      (plot_top_requested_paths entries n).Pairwise
        (fun p q => p.2 = q.2 →
          (entries.map (fun e => e.request_path)).indexOf p.1 <
            (entries.map (fun e => e.request_path)).indexOf q.1) :=
  ⟨mostCommon_counter_sorted _ n,
    fun _pr hpr => mostCommon_counter_mem hpr,
    mostCommon_counter_length _ n,
    fun _a ha hnot pr hpr => mostCommon_counter_complete ha hnot pr hpr,
    mostCommon_counter_ties _ n⟩

/-- Witness for C7 on the specification's example paths with n = 2: the
aggregate is exactly the expected ordered mapping, and the top entry's
count is as the theorem states. -/
theorem claim7_witness :
    plot_top_requested_paths c7sample 2 = [("/a", 3), ("/c", 2)] ∧
      ("/a" ∈ c7sample.map (fun e => e.request_path) ∧
        (("/a", 3) : String × Nat).2 =
          (c7sample.map (fun e => e.request_path)).count "/a") :=
  ⟨by decide, (claim7_top_paths c7sample 2).2.1 ("/a", 3) (by decide)⟩
end Archivo
